/-
  Verification of the pose-history ring buffer and client state logic of
  `hello_ar_application.cc` (CloudXR ARCore sample client).

  Shallow embedding notes:
  * `float` components are modelled by exact rationals (ℚ); the per-component
    tolerance `0.0001f` is modelled by `1/10000`.
  * `cxrMatrix34` (`float m[3][4]`) is modelled as `Fin 3 → Fin 4 → ℚ`;
    `glm::mat4` (column-major, accessed `m[col][row]`) as `Fin 4 → Fin 4 → ℚ`
    with the same index usage as the source (`p c r` for `p[c][r]`).
  * The fixed array `cxrMatrix34 pose_matrix_[kQueueLen]` is modelled as a
    total function `ℕ → Mat34`; the source only ever indexes it with values
    in `[0, kQueueLen)`.
  * Modelled from the spec: the capacity `kQueueLen` is
    `BackgroundRenderer::kQueueLen`, defined in `background_renderer.h`,
    which is not part of this repository snapshot; the spec fixes no value
    ("fixed-capacity circular buffer ... capacity N"), so the development is
    parameterized by a capacity `Q` with `0 < Q`.
-/
import Mathlib

namespace CloudXR

/-- `cxrMatrix34`: 3x4 matrix of (modelled) floats, `m[i][j] = m i j`. -/
def Mat34 : Type := Fin 3 → Fin 4 → ℚ

instance : DecidableEq Mat34 := by unfold Mat34; infer_instance

/-- `glm::mat4`: 4x4 matrix, accessed column-major as in the source
(`pose_mat[c][r] = p c r`). -/
def Mat44 : Type := Fin 4 → Fin 4 → ℚ

/-- Zero-initialized `cxrMatrix34` (the array initializer `= {}`). -/
def zeroMat : Mat34 := fun _ _ => 0

/-- A zero `glm::mat4`, used only as a `getD` default. -/
def glmZero : Mat44 := fun _ _ => 0

/-- The matching tolerance `0.0001f` of `DetermineOffset`. -/
def eps : ℚ := 1 / 10000

/-- The twelve assignments of `SetPoseMatrix`:
`pose_matrix.m[i][j] = pose_mat[j][i]` for `i < 3`, `j < 4`. -/
def cxrOfGlm (pose_mat : Mat44) : Mat34 := fun i j => pose_mat j i

/-- `fabsf` on the modelled floats. -/
def fabsf (x : ℚ) : ℚ := if x < 0 then -x else x

/-- The inner double loop of `DetermineOffset`: the number of components
`(i, j)` with `fabsf(pose_matrix.m[i][j] - target.m[i][j]) >= 0.0001f`
(the source's `notMatch` counter). -/
def notMatchCount (pose_matrix target : Mat34) : ℕ :=
  ((Finset.univ : Finset (Fin 3 × Fin 4)).filter
    (fun ij => eps ≤ fabsf (pose_matrix ij.1 ij.2 - target ij.1 ij.2))).card

/-- The ring-buffer part of `HelloArApplication::CloudXRClient`:
`cxrMatrix34 pose_matrix_[kQueueLen]` and `int current_idx_`. -/
structure CXRState where
  pose_matrix : ℕ → Mat34
  current_idx : ℕ

/-- The member initializers: `pose_matrix_[kQueueLen] = {}` (zero-filled)
and `current_idx_ = 0`. -/
def initState : CXRState :=
  { pose_matrix := fun _ => zeroMat, current_idx := 0 }

/-- `SetPoseMatrix`: write the (transposed, truncated) pose into the slot at
the cursor, then advance the cursor: `current_idx_ = (current_idx_ + 1) % kQueueLen`.
`Q` is the capacity `kQueueLen`. -/
def SetPoseMatrix (Q : ℕ) (s : CXRState) (pose_mat : Mat44) : CXRState :=
  { pose_matrix := Function.update s.pose_matrix s.current_idx (cxrOfGlm pose_mat),
    current_idx := (s.current_idx + 1) % Q }

/-- A sequence of `SetPoseMatrix` calls. -/
def pushAll (Q : ℕ) (s : CXRState) (ps : List Mat44) : CXRState :=
  ps.foldl (SetPoseMatrix Q) s

/-- The index read by `GetTrackingState`:
`current_idx_ == 0 ? kQueueLen - 1 : (current_idx_ - 1) % kQueueLen`.
(In the `else` branch `current_idx_ ≥ 1`, so the C `%` acts on a
nonnegative value and ℕ subtraction agrees with the source.) -/
def latestIdx (Q : ℕ) (s : CXRState) : ℕ :=
  if s.current_idx = 0 then Q - 1 else (s.current_idx - 1) % Q

/-- The ring read performed by `GetTrackingState` (the value handed to
`cxrMatrixToVecQuat`, an external SDK conversion that is out of scope). -/
def GetTrackingState (Q : ℕ) (s : CXRState) : Mat34 :=
  s.pose_matrix (latestIdx Q s)

/-- The index computation of `DetermineOffset`:
`current_idx_ < offset ? kQueueLen + (current_idx_ - offset) % kQueueLen
                       : (current_idx_ - offset) % kQueueLen`,
over C `int`s, where `%` is C truncated remainder (`Int.tmod`). -/
def offsetIdx (Q : ℕ) (c o : ℤ) : ℤ :=
  if c < o then (Q : ℤ) + (c - o).tmod (Q : ℤ) else (c - o).tmod (Q : ℤ)

/-- `offsetIdx` as an array index (the C `int` result is used to index
`pose_matrix_`; under the source's invariants it is nonnegative). -/
def cxxIdx (Q c o : ℕ) : ℕ := (offsetIdx Q (c : ℤ) (o : ℤ)).toNat

/-- The `for (offset = 0; offset < kQueueLen; offset++)` loop of
`DetermineOffset`, with `fuel` iterations remaining; returns the current
`offset` as soon as `notMatch == 0`, and `0` when the loop exhausts. -/
def detLoop (Q : ℕ) (s : CXRState) (target : Mat34) : ℕ → ℕ → ℕ
  | _, 0 => 0
  | o, fuel + 1 =>
    if notMatchCount (s.pose_matrix (cxxIdx Q s.current_idx o)) target = 0 then o
    else detLoop Q s target (o + 1) fuel

/-- `DetermineOffset`: scan offsets `0, 1, ..., kQueueLen - 1`; return the
first offset whose slot is within tolerance of `target`
(`framesLatched_.poseMatrix`), else `0`. -/
def DetermineOffset (Q : ℕ) (s : CXRState) (target : Mat34) : ℕ :=
  detLoop Q s target 0 Q

/-! ### Basic lemmas about component matching -/

theorem notMatchCount_self (a : Mat34) : notMatchCount a a = 0 := by
  unfold notMatchCount
  rw [Finset.card_eq_zero, Finset.filter_eq_empty_iff]
  intro ij _
  simp only [sub_self]
  unfold fabsf eps
  norm_num

theorem ne_of_notMatchCount_pos {a b : Mat34} (h : notMatchCount a b ≠ 0) : a ≠ b := by
  intro rfl_ab
  exact h (rfl_ab ▸ notMatchCount_self a)

/-! ### Modular-arithmetic helpers -/

theorem add_mod_ne {Q c d : ℕ} (hc : c < Q) (hd0 : 0 < d) (hdQ : d < Q) :
    (c + d) % Q ≠ c := by
  intro h
  rcases Nat.lt_or_ge (c + d) Q with hlt | hge
  · rw [Nat.mod_eq_of_lt hlt] at h
    omega
  · have h2 : (c + d) % Q = (c + d - Q) % Q := Nat.mod_eq_sub_mod hge
    have h3 : c + d - Q < Q := by omega
    rw [h2, Nat.mod_eq_of_lt h3] at h
    omega

theorem mod_pred_zero {Q l : ℕ} (hQ : 0 < Q) (hl : 0 < l) (h : l % Q = 0) :
    (l - 1) % Q = Q - 1 := by
  obtain ⟨k, hk⟩ := Nat.dvd_of_mod_eq_zero h
  rcases Nat.eq_zero_or_pos k with rfl | hkpos
  · simp at hk
    omega
  · have h3 : Q * k = Q * (k - 1) + Q := by
      cases k with
      | zero => omega
      | succ n => rw [Nat.mul_succ]; simp
    have h2 : l - 1 = Q * (k - 1) + (Q - 1) := by omega
    rw [h2, Nat.mul_add_mod, Nat.mod_eq_of_lt (by omega)]

theorem mod_pred_pos {Q l : ℕ} (h : l % Q ≠ 0) : (l - 1) % Q = l % Q - 1 := by
  rcases Nat.eq_zero_or_pos Q with h0 | hQ
  · subst h0; simp
  · have hd := Nat.div_add_mod l Q
    have hr : l % Q < Q := Nat.mod_lt _ hQ
    have : l - 1 = Q * (l / Q) + (l % Q - 1) := by omega
    rw [this, Nat.mul_add_mod, Nat.mod_eq_of_lt (by omega)]

/-! ### The `DetermineOffset` index computation -/

theorem tmod_negSucc (m n : ℕ) :
    (Int.negSucc m).tmod (Int.ofNat n) = -Int.ofNat ((m + 1) % n) := rfl

theorem cxxIdx_eq {Q c o : ℕ} (_hc : c < Q) (ho : o < Q) :
    cxxIdx Q c o = (c + Q - o) % Q := by
  unfold cxxIdx offsetIdx
  rcases Nat.lt_or_ge c o with hco | hco
  · have hlt : (c : ℤ) < o := by exact_mod_cast hco
    rw [if_pos hlt]
    have hneg : (c : ℤ) - o = Int.negSucc (o - c - 1) := by
      rw [Int.negSucc_eq]
      omega
    have hQ' : (Q : ℤ) = Int.ofNat Q := rfl
    rw [hneg, hQ', tmod_negSucc]
    have hsub : o - c - 1 + 1 = o - c := by omega
    rw [hsub, Nat.mod_eq_of_lt (by omega)]
    have hval : (Int.ofNat Q) + -Int.ofNat (o - c) = ((Q + c - o : ℕ) : ℤ) := by
      simp only [Int.ofNat_eq_coe]
      omega
    rw [hval, Int.toNat_natCast]
    have : c + Q - o < Q := by omega
    rw [Nat.mod_eq_of_lt this]
    omega
  · have hnlt : ¬ (c : ℤ) < o := by exact_mod_cast Nat.not_lt.mpr hco
    rw [if_neg hnlt]
    have hcast : (c : ℤ) - o = ((c - o : ℕ) : ℤ) := by omega
    have h1 : ((c - o : ℕ) : ℤ).tmod (Q : ℤ) = (((c - o) % Q : ℕ) : ℤ) := by
      rw [Int.tmod_eq_emod (Int.natCast_nonneg _) (Int.natCast_nonneg _)]
      push_cast
      rfl
    rw [hcast, h1, Int.toNat_natCast]
    have : c + Q - o = (c - o) + Q := by omega
    rw [this, Nat.add_mod_right]

theorem cxxIdx_lt {Q c o : ℕ} (hc : c < Q) (ho : o < Q) : cxxIdx Q c o < Q := by
  rw [cxxIdx_eq hc ho]
  exact Nat.mod_lt _ (by omega)

theorem ring_idx_inj {Q c : ℕ} (_hc : c < Q) {o o' : ℕ} (ho : o < Q) (ho' : o' < Q)
    (h : (c + Q - o) % Q = (c + Q - o') % Q) : o = o' := by
  rcases Nat.le_total o o' with hle | hle
  · have hyx : c + Q - o' ≤ c + Q - o := by omega
    have hmeq : Nat.ModEq Q (c + Q - o') (c + Q - o) := h.symm
    have hdvd := (Nat.modEq_iff_dvd' hyx).mp hmeq
    have hlt : (c + Q - o) - (c + Q - o') < Q := by omega
    have := Nat.eq_zero_of_dvd_of_lt hdvd hlt
    omega
  · have hyx : c + Q - o ≤ c + Q - o' := by omega
    have hmeq : Nat.ModEq Q (c + Q - o) (c + Q - o') := h
    have hdvd := (Nat.modEq_iff_dvd' hyx).mp hmeq
    have hlt : (c + Q - o') - (c + Q - o) < Q := by omega
    have := Nat.eq_zero_of_dvd_of_lt hdvd hlt
    omega

/-! ### Characterization of the `DetermineOffset` scan loop -/

theorem detLoop_eq_of_first (Q : ℕ) (s : CXRState) (t : Mat34) :
    ∀ fuel o m, o ≤ m → m < o + fuel →
      notMatchCount (s.pose_matrix (cxxIdx Q s.current_idx m)) t = 0 →
      (∀ j, o ≤ j → j < m →
        notMatchCount (s.pose_matrix (cxxIdx Q s.current_idx j)) t ≠ 0) →
      detLoop Q s t o fuel = m := by
  intro fuel
  induction fuel with
  | zero => intro o m h1 h2 _ _; omega
  | succ fuel ih =>
    intro o m h1 h2 hm hbefore
    unfold detLoop
    by_cases ho : notMatchCount (s.pose_matrix (cxxIdx Q s.current_idx o)) t = 0
    · rw [if_pos ho]
      by_contra hne
      exact hbefore o le_rfl (by omega) ho
    · rw [if_neg ho]
      have hom : o ≠ m := fun he => ho (he ▸ hm)
      exact ih (o + 1) m (by omega) (by omega) hm (fun j hj1 hj2 => hbefore j (by omega) hj2)

theorem detLoop_eq_zero (Q : ℕ) (s : CXRState) (t : Mat34) :
    ∀ fuel o,
      (∀ j, o ≤ j → j < o + fuel →
        notMatchCount (s.pose_matrix (cxxIdx Q s.current_idx j)) t ≠ 0) →
      detLoop Q s t o fuel = 0 := by
  intro fuel
  induction fuel with
  | zero => intro o _; rfl
  | succ fuel ih =>
    intro o hnone
    unfold detLoop
    rw [if_neg (hnone o le_rfl (by omega))]
    exact ih (o + 1) (fun j hj1 hj2 => hnone j (by omega) (by omega))

theorem determineOffset_eq_of_first {Q : ℕ} {s : CXRState} {t : Mat34} {m : ℕ}
    (hm : m < Q)
    (hmatch : notMatchCount (s.pose_matrix (cxxIdx Q s.current_idx m)) t = 0)
    (hbefore : ∀ j < m,
      notMatchCount (s.pose_matrix (cxxIdx Q s.current_idx j)) t ≠ 0) :
    DetermineOffset Q s t = m :=
  detLoop_eq_of_first Q s t Q 0 m (Nat.zero_le _) (by omega) hmatch
    (fun j _ hj2 => hbefore j hj2)

theorem determineOffset_eq_zero {Q : ℕ} {s : CXRState} {t : Mat34}
    (hnone : ∀ j < Q,
      notMatchCount (s.pose_matrix (cxxIdx Q s.current_idx j)) t ≠ 0) :
    DetermineOffset Q s t = 0 :=
  detLoop_eq_zero Q s t Q 0 (fun j _ hj2 => hnone j (by omega))

/-! ### Contents of the ring after a sequence of pushes -/

theorem pushAll_append (Q : ℕ) (s : CXRState) (ps : List Mat44) (p : Mat44) :
    pushAll Q s (ps ++ [p]) = SetPoseMatrix Q (pushAll Q s ps) p := by
  unfold pushAll
  rw [List.foldl_append]
  rfl

theorem pushAll_current_idx {Q : ℕ} (s : CXRState) (hc : s.current_idx < Q) :
    ∀ ps : List Mat44, (pushAll Q s ps).current_idx = (s.current_idx + ps.length) % Q := by
  intro ps
  induction ps generalizing s with
  | nil => simp [pushAll, Nat.mod_eq_of_lt hc]
  | cons p ps ih =>
    have hQ : 0 < Q := by omega
    have step : pushAll Q s (p :: ps) = pushAll Q (SetPoseMatrix Q s p) ps := rfl
    rw [step, ih (SetPoseMatrix Q s p) (Nat.mod_lt _ hQ)]
    show ((s.current_idx + 1) % Q + ps.length) % Q = _
    rw [Nat.mod_add_mod]
    congr 1
    simp [List.length_cons]
    omega

theorem pushAll_preserve {Q : ℕ} (s : CXRState) (hc : s.current_idx < Q) (i : ℕ) :
    ∀ ps : List Mat44, (∀ m < ps.length, (s.current_idx + m) % Q ≠ i) →
      (pushAll Q s ps).pose_matrix i = s.pose_matrix i := by
  intro ps
  induction ps generalizing s with
  | nil => intro _; rfl
  | cons p ps ih =>
    intro h
    have hQ : 0 < Q := by omega
    have step : pushAll Q s (p :: ps) = pushAll Q (SetPoseMatrix Q s p) ps := rfl
    have h0 : s.current_idx ≠ i := by
      have := h 0 (by simp)
      rwa [Nat.add_zero, Nat.mod_eq_of_lt hc] at this
    rw [step, ih (SetPoseMatrix Q s p) (Nat.mod_lt _ hQ)]
    · show Function.update s.pose_matrix s.current_idx (cxrOfGlm p) i = _
      rw [Function.update_noteq (Ne.symm h0)]
    · intro m hm
      show ((s.current_idx + 1) % Q + m) % Q ≠ i
      rw [Nat.mod_add_mod]
      have h2 := h (m + 1) (by simp; omega)
      have h3 : s.current_idx + 1 + m = s.current_idx + (m + 1) := by omega
      rw [h3]
      exact h2

theorem pushAll_slot_recent {Q : ℕ} (hQ : 0 < Q) :
    ∀ (ps : List Mat44) (j : ℕ), j < ps.length → ps.length ≤ j + Q →
      (pushAll Q initState ps).pose_matrix (j % Q) = cxrOfGlm (ps.getD j glmZero) := by
  intro ps
  induction ps using List.reverseRecOn with
  | nil => intro j hj _; simp at hj
  | append_singleton qs p ih =>
    intro j hj hrecent
    rw [pushAll_append]
    have hlen : (qs ++ [p]).length = qs.length + 1 := by simp
    rw [hlen] at hj hrecent
    have hcur : (pushAll Q initState qs).current_idx = qs.length % Q := by
      rw [pushAll_current_idx initState hQ qs]
      simp [initState]
    rcases Nat.lt_or_ge j qs.length with hjlt | hjge
    · have hd1 : 0 < qs.length - j := by omega
      have hd2 : qs.length - j < Q := by omega
      have hsplit : qs.length % Q = (j % Q + (qs.length - j)) % Q := by
        conv_lhs => rw [show qs.length = j + (qs.length - j) by omega]
        rw [Nat.add_mod, Nat.mod_eq_of_lt hd2]
      have hne : qs.length % Q ≠ j % Q := by
        rw [hsplit]
        exact add_mod_ne (Nat.mod_lt _ hQ) hd1 hd2
      show Function.update (pushAll Q initState qs).pose_matrix
        (pushAll Q initState qs).current_idx (cxrOfGlm p) (j % Q) = _
      rw [hcur, Function.update_noteq (Ne.symm hne)]
      have hgd : (qs ++ [p]).getD j glmZero = qs.getD j glmZero := by
        simp only [List.getD_eq_getElem?_getD, List.getElem?_append_left hjlt]
      rw [hgd]
      exact ih j hjlt (by omega)
    · have hj' : j = qs.length := by omega
      subst hj'
      show Function.update (pushAll Q initState qs).pose_matrix
        (pushAll Q initState qs).current_idx (cxrOfGlm p) (qs.length % Q) = _
      rw [hcur, Function.update_same]
      have hgd : (qs ++ [p]).getD qs.length glmZero = p := by
        simp [List.getD_eq_getElem?_getD, List.getElem?_concat_length]
      rw [hgd]

theorem pushAll_slot_untouched {Q : ℕ} (hQ : 0 < Q) (ps : List Mat44)
    (hlen : ps.length ≤ Q) (i : ℕ) (hi : ps.length ≤ i) :
    (pushAll Q initState ps).pose_matrix i = zeroMat := by
  have h := pushAll_preserve (s := initState) hQ i ps ?_
  · exact h
  · intro m hm
    show (0 + m) % Q ≠ i
    rw [Nat.zero_add, Nat.mod_eq_of_lt (by omega)]
    omega

theorem pushAll_slot_of_lt {Q : ℕ} (hQ : 0 < Q) (ps : List Mat44)
    (hlen : ps.length ≤ Q) (j : ℕ) (hj : j < ps.length) :
    (pushAll Q initState ps).pose_matrix j = cxrOfGlm (ps.getD j glmZero) := by
  have h := pushAll_slot_recent hQ ps j hj (by omega)
  rwa [Nat.mod_eq_of_lt (by omega)] at h

/-! ### The frame latch state machine (`Latch` / `Release`) -/

/-- The CloudXR error codes the latch logic distinguishes. -/
inductive CxrError where
  | Success
  | Receiver_Not_Running
  | Frame_Not_Ready
  | Other (code : ℕ)
deriving DecidableEq

/-- The client state the latch logic touches: `cloudxr_receiver_` (modelled
by whether it is non-null, i.e. `IsRunning()`), `latched_`, and the pose
part of `framesLatched_` that `DetermineOffset` reads. -/
structure ClientState where
  receiver_running : Bool
  latched : Bool
  framesLatched : Mat34
deriving DecidableEq

/-- Result of `Latch`: the returned `cxrError`, the state after the call,
and whether the external `cxrLatchFrame` was invoked. -/
structure LatchResult where
  status : CxrError
  state : ClientState
  fetched : Bool
deriving DecidableEq

/-- `Latch`. The external `cxrLatchFrame` call is an oracle parameter
`latchFrame` (its status and, on success, the latched frame's pose);
on failure the latched state is left unchanged. -/
def Latch (s : ClientState) (latchFrame : CxrError × Mat34) : LatchResult :=
  if s.latched then ⟨CxrError.Success, s, false⟩
  else if s.receiver_running = false then ⟨CxrError.Receiver_Not_Running, s, false⟩
  else if latchFrame.1 ≠ CxrError.Success then ⟨latchFrame.1, s, true⟩
  else ⟨CxrError.Success,
        { s with latched := true, framesLatched := latchFrame.2 }, true⟩

/-- `Release`: the state after the call, and whether the external
`cxrReleaseFrame` was invoked. -/
def Release (s : ClientState) : ClientState × Bool :=
  if s.latched = false then (s, false)
  else ({ s with latched := false }, true)

/-! ### `SetStreamRes` -/

/-- `stream_width_ = 720` (member initializer). -/
def stream_width_default : ℕ := 720

/-- `stream_height_ = 1440` (member initializer). -/
def stream_height_default : ℕ := 1440

/-- `SetStreamRes(w, h, orientation)` with resolution factor `res_factor`
(held in `[0.5, 1.0]` by the option parser). Returns the new
`(stream_width_, stream_height_)`. `round` on the modelled nonnegative
floats is Mathlib's `round` (half away from zero agrees with half up for
nonnegative values), and `& ~1` (clear the low bit) is `2 * (n / 2)`.
The `uint32_t` wraparound is not modelled (display dimensions are far
below `2^32`). -/
def SetStreamRes (res_factor : ℚ) (w h orientation : ℕ) : ℕ × ℕ :=
  let wh := if w > h ∧ (orientation = 0 ∨ orientation = 2) then (h, w) else (w, h)
  (2 * ((round ((wh.1 : ℚ) * res_factor)).toNat / 2),
   2 * ((round ((wh.2 : ℚ) * res_factor)).toNat / 2))

/-! ### Mutex discipline of the ring accesses

Each member function is abstracted to its trace of atomic events: mutex
acquire/release (the `std::lock_guard` scope) and individual reads/writes
of the ring fields (`pose_matrix_`, `current_idx_`). -/

/-- One atomic event of a member function. -/
inductive Instr where
  | lock
  | unlock
  | readCursor
  | writeCursor
  | readSlot (i : ℕ)
  | writeSlot (i : ℕ)
deriving DecidableEq

/-- Whether an event is an access to the ring state. -/
def isRingAccess : Instr → Bool
  | Instr.lock => false
  | Instr.unlock => false
  | _ => true

/-- Events of `SetPoseMatrix`: the `lock_guard` spans the whole body; it
reads `current_idx_`, writes `pose_matrix_[current_idx_]`, then reads and
writes `current_idx_`. -/
def setPoseMatrixTrace (cur : ℕ) : List Instr :=
  [Instr.lock, Instr.readCursor, Instr.writeSlot cur,
   Instr.readCursor, Instr.writeCursor, Instr.unlock]

/-- Events of `GetTrackingState`'s ring read: the `lock_guard` block reads
`current_idx_` and `pose_matrix_[idx]`. -/
def getTrackingStateTrace (idx : ℕ) : List Instr :=
  [Instr.lock, Instr.readCursor, Instr.readSlot idx, Instr.unlock]

/-- Events of the `DetermineOffset` loop (which takes no lock): each
iteration reads `current_idx_` and `pose_matrix_[idx]`, stopping after the
first match. -/
def detLoopTrace (Q : ℕ) (s : CXRState) (target : Mat34) : ℕ → ℕ → List Instr
  | _, 0 => []
  | o, fuel + 1 =>
    Instr.readCursor :: Instr.readSlot (cxxIdx Q s.current_idx o) ::
      (if notMatchCount (s.pose_matrix (cxxIdx Q s.current_idx o)) target = 0 then []
       else detLoopTrace Q s target (o + 1) fuel)

/-- The event trace of a `DetermineOffset` call. -/
def determineOffsetTrace (Q : ℕ) (s : CXRState) (target : Mat34) : List Instr :=
  detLoopTrace Q s target 0 Q

/-- Scan a trace keeping the current lock depth; `true` iff every ring
access happens at positive lock depth (inside a critical section). -/
def lockedFrom : ℕ → List Instr → Bool
  | _, [] => true
  | d, Instr.lock :: r => lockedFrom (d + 1) r
  | d, Instr.unlock :: r => lockedFrom (d - 1) r
  | d, i :: r => (!isRingAccess i || decide (0 < d)) && lockedFrom d r

/-- Every ring access of the trace occurs inside a critical section. -/
def accessesLocked (tr : List Instr) : Bool := lockedFrom 0 tr

/-! ### Concrete test poses used by witnesses and counterexamples -/

/-- A constant pose with every component `1`. -/
def onesPose : Mat44 := fun _ _ => 1

/-- A constant pose with every component `2`. -/
def twosPose : Mat44 := fun _ _ => 2

/-- A constant pose with every component `3`. -/
def threesPose : Mat44 := fun _ _ => 3

/-! ### Claims -/

/-- C3: `push` (`SetPoseMatrix`) writes the new pose into the slot at the
write cursor `current_idx_` — which, once the ring is full, holds the
oldest surviving sample — and then advances the cursor by one modulo the
capacity, so that afterwards the cursor points one past the newly written
slot. Stated for any state reached by pushing `ps` from the initial state. -/
theorem claim_C3_push_overwrites_oldest_and_advances
    (Q : ℕ) (ps : List Mat44) (p : Mat44) (hQ : 0 < Q) :
    (pushAll Q initState ps).current_idx = ps.length % Q ∧
    (Q ≤ ps.length →
      (pushAll Q initState ps).pose_matrix (pushAll Q initState ps).current_idx =
        cxrOfGlm (ps.getD (ps.length - Q) glmZero)) ∧
    (SetPoseMatrix Q (pushAll Q initState ps) p).pose_matrix
        (pushAll Q initState ps).current_idx = cxrOfGlm p ∧
    (SetPoseMatrix Q (pushAll Q initState ps) p).current_idx =
      ((pushAll Q initState ps).current_idx + 1) % Q := by
  have hcur : (pushAll Q initState ps).current_idx = ps.length % Q := by
    rw [pushAll_current_idx initState hQ]
    simp [initState]
  refine ⟨hcur, ?_, ?_, rfl⟩
  · intro hfull
    have hrec := pushAll_slot_recent hQ ps (ps.length - Q)
      (by omega) (by omega)
    have hmod : (ps.length - Q) % Q = ps.length % Q := by
      conv_rhs => rw [show ps.length = (ps.length - Q) + Q by omega]
      rw [Nat.add_mod_right]
    rw [hcur, ← hmod]
    exact hrec
  · show Function.update (pushAll Q initState ps).pose_matrix
      (pushAll Q initState ps).current_idx (cxrOfGlm p)
      (pushAll Q initState ps).current_idx = cxrOfGlm p
    rw [Function.update_same]

/-- Witness for C3 at capacity 2 after pushes `[onesPose, twosPose]`:
the hypothesis `0 < 2` holds and the conclusion follows by the theorem. -/
theorem claim_C3_witness :
    (0 < 2) ∧
    ((pushAll 2 initState [onesPose, twosPose]).current_idx = 0 ∧
     (2 ≤ 2 →
       (pushAll 2 initState [onesPose, twosPose]).pose_matrix
         (pushAll 2 initState [onesPose, twosPose]).current_idx =
         cxrOfGlm ([onesPose, twosPose].getD 0 glmZero)) ∧
     (SetPoseMatrix 2 (pushAll 2 initState [onesPose, twosPose]) threesPose).pose_matrix
         (pushAll 2 initState [onesPose, twosPose]).current_idx = cxrOfGlm threesPose ∧
     (SetPoseMatrix 2 (pushAll 2 initState [onesPose, twosPose]) threesPose).current_idx =
       ((pushAll 2 initState [onesPose, twosPose]).current_idx + 1) % 2) :=
  ⟨by decide,
   by
    have h := claim_C3_push_overwrites_oldest_and_advances 2
      [onesPose, twosPose] threesPose (by decide)
    simpa using h⟩

/-- C4: `latest()` — the ring read of `GetTrackingState` — returns exactly
the pose most recently written by `SetPoseMatrix`, i.e. the sample at
index `current_idx_ - 1` modulo the capacity (for any nonempty push
history). -/
theorem claim_C4_get_tracking_state_latest
    (Q : ℕ) (ps : List Mat44) (hQ : 0 < Q) (hne : ps ≠ []) :
    GetTrackingState Q (pushAll Q initState ps) =
      cxrOfGlm (ps.getD (ps.length - 1) glmZero) ∧
    latestIdx Q (pushAll Q initState ps) =
      ((pushAll Q initState ps).current_idx + Q - 1) % Q := by
  have hl : 0 < ps.length := List.length_pos.mpr hne
  have hcur : (pushAll Q initState ps).current_idx = ps.length % Q := by
    rw [pushAll_current_idx initState hQ]
    simp [initState]
  have hslot := pushAll_slot_recent hQ ps (ps.length - 1) (by omega) (by omega)
  have hidx : latestIdx Q (pushAll Q initState ps) = (ps.length - 1) % Q := by
    unfold latestIdx
    rw [hcur]
    by_cases h0 : ps.length % Q = 0
    · rw [if_pos h0, mod_pred_zero hQ hl h0]
    · rw [if_neg h0, mod_pred_pos h0]
      have hmlt : ps.length % Q < Q := Nat.mod_lt _ hQ
      rw [Nat.mod_eq_of_lt (by omega)]
  constructor
  · show (pushAll Q initState ps).pose_matrix (latestIdx Q (pushAll Q initState ps)) = _
    rw [hidx]
    exact hslot
  · rw [hidx, hcur]
    by_cases h0 : ps.length % Q = 0
    · rw [mod_pred_zero hQ hl h0, h0, Nat.zero_add, Nat.mod_eq_of_lt (by omega)]
    · rw [mod_pred_pos h0]
      have hmlt : ps.length % Q < Q := Nat.mod_lt _ hQ
      have hsplit : ps.length % Q + Q - 1 = (ps.length % Q - 1) + Q := by omega
      rw [hsplit, Nat.add_mod_right,
        Nat.mod_eq_of_lt (show ps.length % Q - 1 < Q by omega)]

/-- Witness for C4 at capacity 2 after pushes `[onesPose, twosPose]`. -/
theorem claim_C4_witness :
    ((0 : ℕ) < 2 ∧ [onesPose, twosPose] ≠ []) ∧
    (GetTrackingState 2 (pushAll 2 initState [onesPose, twosPose]) =
       cxrOfGlm ([onesPose, twosPose].getD 1 glmZero) ∧
     latestIdx 2 (pushAll 2 initState [onesPose, twosPose]) =
       ((pushAll 2 initState [onesPose, twosPose]).current_idx + 2 - 1) % 2) :=
  ⟨⟨by decide, by simp⟩,
   by
    have h := claim_C4_get_tracking_state_latest 2 [onesPose, twosPose]
      (by decide) (by simp)
    simpa using h⟩

/-- C5: if no sample in the full ring depth is within the per-component
tolerance of the target (every slot has some component differing by at
least `0.0001`), `DetermineOffset` returns the default offset `0`. -/
theorem claim_C5_no_match_defaults_to_zero
    (Q : ℕ) (s : CXRState) (target : Mat34) (hQ : 0 < Q)
    (hc : s.current_idx < Q)
    (h : ∀ i < Q, notMatchCount (s.pose_matrix i) target ≠ 0) :
    DetermineOffset Q s target = 0 :=
  determineOffset_eq_zero (fun j hj => h _ (cxxIdx_lt hc hj))

/-- Witness for C5: the initial (all-zero) ring of capacity 2 has no slot
within tolerance of the all-ones pose, and `DetermineOffset` returns 0. -/
theorem claim_C5_witness :
    ((0 : ℕ) < 2 ∧ initState.current_idx < 2 ∧
     (∀ i < 2, notMatchCount (initState.pose_matrix i) (cxrOfGlm onesPose) ≠ 0)) ∧
    DetermineOffset 2 initState (cxrOfGlm onesPose) = 0 :=
  ⟨⟨by decide, by decide, by with_unfolding_all decide⟩,
   claim_C5_no_match_defaults_to_zero 2 initState (cxrOfGlm onesPose)
     (by decide) (by decide) (by with_unfolding_all decide)⟩

/-- C9: the latch flag is a two-state machine kept consistent by `Latch`
and `Release`: `Latch` while latched returns `Success` without invoking
`cxrLatchFrame`; `Latch` with no receiver returns `Receiver_Not_Running`
leaving the state unchanged; the flag becomes set only when
`cxrLatchFrame` succeeds; `Release` clears the flag when set (invoking
`cxrReleaseFrame`) and is a no-op when not. -/
theorem claim_C9_latch_release_state_machine
    (s : ClientState) (lf : CxrError × Mat34) :
    (s.latched = true → Latch s lf = ⟨CxrError.Success, s, false⟩) ∧
    (s.latched = false → s.receiver_running = false →
      Latch s lf = ⟨CxrError.Receiver_Not_Running, s, false⟩) ∧
    ((Latch s lf).state.latched = true →
      s.latched = true ∨ lf.1 = CxrError.Success) ∧
    (s.latched = true → Release s = ({ s with latched := false }, true)) ∧
    (s.latched = false → Release s = (s, false)) := by
  rcases s with ⟨rr, l, fr⟩
  rcases lf with ⟨st, frame⟩
  cases l <;> cases rr <;> by_cases hst : st = CxrError.Success <;>
    simp_all [Latch, Release]

/-- Witness for C9: a latched state returns `Success` without fetching. -/
theorem claim_C9_witness :
    Latch { receiver_running := true, latched := true, framesLatched := zeroMat }
        (CxrError.Success, zeroMat) =
      ⟨CxrError.Success,
       { receiver_running := true, latched := true, framesLatched := zeroMat },
       false⟩ :=
  (claim_C9_latch_release_state_machine
    { receiver_running := true, latched := true, framesLatched := zeroMat }
    (CxrError.Success, zeroMat)).1 rfl

/-- C7: each push modifies only the slot at the write cursor (every other
slot is unchanged); the newly written slot is then immutable through the
next `kQueueLen - 1` pushes, and the cursor returns to it after exactly
`kQueueLen - 1` further pushes, so the `kQueueLen`-th further push is the
one that overwrites it. -/
theorem claim_C7_write_once_until_wrap
    (Q : ℕ) (s : CXRState) (p : Mat44) (hQ : 0 < Q) (hc : s.current_idx < Q) :
    (∀ i, i ≠ s.current_idx →
      (SetPoseMatrix Q s p).pose_matrix i = s.pose_matrix i) ∧
    (∀ qs : List Mat44, qs.length < Q →
      (pushAll Q (SetPoseMatrix Q s p) qs).pose_matrix s.current_idx = cxrOfGlm p) ∧
    (∀ qs : List Mat44, qs.length = Q - 1 →
      (pushAll Q (SetPoseMatrix Q s p) qs).current_idx = s.current_idx) := by
  refine ⟨?_, ?_, ?_⟩
  · intro i hi
    show Function.update s.pose_matrix s.current_idx (cxrOfGlm p) i = _
    rw [Function.update_noteq hi]
  · intro qs hqs
    have hc' : (SetPoseMatrix Q s p).current_idx < Q := Nat.mod_lt _ hQ
    have hpres := pushAll_preserve (SetPoseMatrix Q s p) hc' s.current_idx qs ?_
    · rw [hpres]
      show Function.update s.pose_matrix s.current_idx (cxrOfGlm p)
        s.current_idx = _
      rw [Function.update_same]
    · intro m hm
      show ((s.current_idx + 1) % Q + m) % Q ≠ s.current_idx
      rw [Nat.mod_add_mod, Nat.add_assoc]
      exact add_mod_ne hc (by omega) (by omega)
  · intro qs hqs
    have hc' : (SetPoseMatrix Q s p).current_idx < Q := Nat.mod_lt _ hQ
    rw [pushAll_current_idx (SetPoseMatrix Q s p) hc' qs]
    show ((s.current_idx + 1) % Q + qs.length) % Q = _
    rw [Nat.mod_add_mod, hqs, Nat.add_assoc,
      show 1 + (Q - 1) = Q by omega, Nat.add_mod_right, Nat.mod_eq_of_lt hc]

/-- Witness for C7 at capacity 2: the push of `onesPose` into the fresh
ring leaves slot 1 unchanged, survives one further push, and the cursor
returns after one further push. -/
theorem claim_C7_witness :
    ((0 : ℕ) < 2 ∧ initState.current_idx < 2) ∧
    ((SetPoseMatrix 2 initState onesPose).pose_matrix 1 = initState.pose_matrix 1 ∧
     (pushAll 2 (SetPoseMatrix 2 initState onesPose) [twosPose]).pose_matrix
       initState.current_idx = cxrOfGlm onesPose ∧
     (pushAll 2 (SetPoseMatrix 2 initState onesPose) [twosPose]).current_idx =
       initState.current_idx) :=
  ⟨⟨by decide, by decide⟩,
   by
    have h := claim_C7_write_once_until_wrap 2 initState onesPose
      (by decide) (by decide)
    exact ⟨h.1 1 (by decide), h.2.1 [twosPose] (by decide),
      h.2.2 [twosPose] (by decide)⟩⟩

/-- Helper for C10: the stream-dimension computation
`((uint32_t)round(x * factor)) & ~1` is monotone in the dimension for a
nonnegative factor. -/
theorem streamDim_mono {f : ℚ} (hf0 : 0 ≤ f) {a b : ℕ} (hab : a ≤ b) :
    2 * ((round ((a : ℚ) * f)).toNat / 2) ≤ 2 * ((round ((b : ℚ) * f)).toNat / 2) := by
  have hq : (a : ℚ) * f ≤ (b : ℚ) * f := by
    have : (a : ℚ) ≤ (b : ℚ) := by exact_mod_cast hab
    exact mul_le_mul_of_nonneg_right this hf0
  have hr : round ((a : ℚ) * f) ≤ round ((b : ℚ) * f) := by
    rw [round_eq, round_eq]
    exact Int.floor_mono (by linarith)
  exact Nat.mul_le_mul_left 2 (Nat.div_le_div_right (Int.toNat_le_toNat hr))

/-- C10: after every `SetStreamRes(w, h, orientation)` call both stored
stream dimensions are even, and in portrait orientations (0 or 2) the
stream width does not exceed the stream height; the initial defaults
`720x1440` satisfy the same. Stated under the option parser's invariant
`0.5 ≤ res_factor ≤ 1`. -/
theorem claim_C10_stream_res_even_and_portrait
    (f : ℚ) (w h orientation : ℕ) (hf : 1 / 2 ≤ f ∧ f ≤ 1) :
    ((SetStreamRes f w h orientation).1 % 2 = 0 ∧
     (SetStreamRes f w h orientation).2 % 2 = 0) ∧
    ((orientation = 0 ∨ orientation = 2) →
      (SetStreamRes f w h orientation).1 ≤ (SetStreamRes f w h orientation).2) ∧
    (stream_width_default % 2 = 0 ∧ stream_height_default % 2 = 0 ∧
     stream_width_default ≤ stream_height_default) := by
  have hf0 : (0 : ℚ) ≤ f := le_trans (by norm_num) hf.1
  refine ⟨⟨Nat.mul_mod_right 2 _, Nat.mul_mod_right 2 _⟩, ?_, by decide, by decide, by decide⟩
  intro ho
  unfold SetStreamRes
  by_cases hcond : w > h ∧ (orientation = 0 ∨ orientation = 2)
  · rw [if_pos hcond]
    exact streamDim_mono hf0 (by omega)
  · rw [if_neg hcond]
    have hwh : w ≤ h := by
      by_contra hgt
      exact hcond ⟨by omega, ho⟩
    exact streamDim_mono hf0 hwh

/-- Witness for C10 with the default factor `3/4` on a `2400x1080`
landscape display in orientation 0. -/
theorem claim_C10_witness :
    ((1 : ℚ) / 2 ≤ 3 / 4 ∧ (3 : ℚ) / 4 ≤ 1) ∧
    (((SetStreamRes (3 / 4) 2400 1080 0).1 % 2 = 0 ∧
      (SetStreamRes (3 / 4) 2400 1080 0).2 % 2 = 0) ∧
     ((0 = 0 ∨ 0 = 2) →
       (SetStreamRes (3 / 4) 2400 1080 0).1 ≤ (SetStreamRes (3 / 4) 2400 1080 0).2) ∧
     (stream_width_default % 2 = 0 ∧ stream_height_default % 2 = 0 ∧
      stream_width_default ≤ stream_height_default)) :=
  ⟨⟨by norm_num, by norm_num⟩,
   claim_C10_stream_res_even_and_portrait (3 / 4) 2400 1080 0
     ⟨by norm_num, by norm_num⟩⟩

/-- C1 counterexample: one pose pushed into a capacity-16 ring, target
equal to the sample written `k = 0` steps ago (the most recent push), and
every other slot out of tolerance — the claim predicts `DetermineOffset`
returns `k = 0`, but it returns `1`: offset `0` denotes the slot at the
write cursor (the next write target), not the most recent sample. -/
theorem claim_C1_counterexample :
    ((pushAll 16 initState [onesPose]).pose_matrix 0 = cxrOfGlm onesPose ∧
     (∀ i < 16, i ≠ 0 →
       notMatchCount ((pushAll 16 initState [onesPose]).pose_matrix i)
         (cxrOfGlm onesPose) ≠ 0)) ∧
    DetermineOffset 16 (pushAll 16 initState [onesPose]) (cxrOfGlm onesPose) = 1 := by
  with_unfolding_all decide

/-- C1 amended: for `N ≤ Q` pushed poses and `k < N`, if the target equals
the sample written `k` steps ago and no other ring slot is within
tolerance of it, `DetermineOffset` returns `(k + 1) % Q` — one more than
the claim says, because the scan starts at the write cursor's slot
(which holds the oldest sample, or garbage when not yet full), wrapping
to `0` for the oldest sample of a full ring. -/
theorem claim_C1_amended_offset_succ_of_steps_ago
    (Q : ℕ) (ps : List Mat44) (k : ℕ) (hQ : 0 < Q)
    (hN : ps.length ≤ Q) (hk : k < ps.length)
    (hothers : ∀ i < Q, i ≠ ps.length - 1 - k →
      notMatchCount ((pushAll Q initState ps).pose_matrix i)
        (cxrOfGlm (ps.getD (ps.length - 1 - k) glmZero)) ≠ 0) :
    DetermineOffset Q (pushAll Q initState ps)
      (cxrOfGlm (ps.getD (ps.length - 1 - k) glmZero)) = (k + 1) % Q := by
  have hcur : (pushAll Q initState ps).current_idx = ps.length % Q := by
    rw [pushAll_current_idx initState hQ]
    simp [initState]
  have hclt : (pushAll Q initState ps).current_idx < Q := by
    rw [hcur]
    exact Nat.mod_lt _ hQ
  have hslot := pushAll_slot_of_lt hQ ps hN (ps.length - 1 - k) (by omega)
  have hmQ : (k + 1) % Q < Q := Nat.mod_lt _ hQ
  have hidx : cxxIdx Q (pushAll Q initState ps).current_idx ((k + 1) % Q) =
      ps.length - 1 - k := by
    rw [cxxIdx_eq hclt hmQ, hcur]
    rcases Nat.lt_or_ge ps.length Q with hlen | hlen
    · rw [Nat.mod_eq_of_lt hlen, Nat.mod_eq_of_lt (show k + 1 < Q by omega),
        show ps.length + Q - (k + 1) = Q + (ps.length - 1 - k) by omega,
        Nat.add_mod_left, Nat.mod_eq_of_lt (by omega)]
    · have hlen' : ps.length = Q := by omega
      have hh : ps.length % Q = 0 := by
        rw [hlen']
        exact Nat.mod_self Q
      rw [hh, Nat.zero_add]
      rcases Nat.lt_or_ge (k + 1) Q with hk1 | hk1
      · rw [Nat.mod_eq_of_lt hk1,
          show Q - (k + 1) = ps.length - 1 - k by omega]
        exact Nat.mod_eq_of_lt (by omega)
      · have hkQ : k + 1 = Q := by omega
        rw [hkQ, Nat.mod_self, Nat.sub_zero, Nat.mod_self]
        omega
  refine determineOffset_eq_of_first hmQ ?_ ?_
  · rw [hidx, hslot]
    exact notMatchCount_self _
  · intro j hj
    have hjQ : j < Q := by omega
    have hne : cxxIdx Q (pushAll Q initState ps).current_idx j ≠
        ps.length - 1 - k := by
      intro he
      have hj_eq : j = (k + 1) % Q := by
        apply ring_idx_inj hclt hjQ hmQ
        rw [← cxxIdx_eq hclt hjQ, ← cxxIdx_eq hclt hmQ, he, hidx]
      omega
    exact hothers _ (cxxIdx_lt hclt hjQ) hne

/-- Witness for the amended C1 at capacity 2, two pushes, `k = 0`. -/
theorem claim_C1_amended_witness :
    ((0 : ℕ) < 2 ∧ [onesPose, twosPose].length ≤ 2 ∧ 0 < [onesPose, twosPose].length ∧
     (∀ i < 2, i ≠ 1 →
       notMatchCount ((pushAll 2 initState [onesPose, twosPose]).pose_matrix i)
         (cxrOfGlm ([onesPose, twosPose].getD 1 glmZero)) ≠ 0)) ∧
    DetermineOffset 2 (pushAll 2 initState [onesPose, twosPose])
      (cxrOfGlm ([onesPose, twosPose].getD 1 glmZero)) = (0 + 1) % 2 :=
  ⟨⟨by decide, by decide, by decide, by with_unfolding_all decide⟩,
   claim_C1_amended_offset_succ_of_steps_ago 2 [onesPose, twosPose] 0
     (by decide) (by decide) (by decide) (by with_unfolding_all decide)⟩

/-- C2 counterexample: with one pushed pose in a capacity-16 ring and the
target equal to the newest sample (the one `GetTrackingState` reads),
the claim's "ring-distance with 0 meaning the newest sample" predicts
`DetermineOffset = 0`, but it returns `1`. -/
theorem claim_C2_counterexample :
    GetTrackingState 16 (pushAll 16 initState [threesPose]) = cxrOfGlm threesPose ∧
    DetermineOffset 16 (pushAll 16 initState [threesPose])
      (cxrOfGlm threesPose) = 1 := by
  with_unfolding_all decide

/-- C2 amended: `DetermineOffset` scans offsets `o = 0, 1, ...` whose slot
indices are `(current_idx_ - o) mod Q` — offset 0 is the slot at the
write cursor (the oldest sample / next write target) and offset 1 the
newest sample — and returns the first `o` whose slot is within
per-component tolerance of the target, defaulting to 0 when none is. -/
theorem claim_C2_amended_scan_starts_at_cursor
    (Q : ℕ) (s : CXRState) (t : Mat34) (hQ : 0 < Q) (hc : s.current_idx < Q) :
    (DetermineOffset Q s t < Q ∧
     notMatchCount
       (s.pose_matrix ((s.current_idx + Q - DetermineOffset Q s t) % Q)) t = 0 ∧
     (∀ j < DetermineOffset Q s t,
       notMatchCount (s.pose_matrix ((s.current_idx + Q - j) % Q)) t ≠ 0)) ∨
    ((∀ j < Q, notMatchCount (s.pose_matrix ((s.current_idx + Q - j) % Q)) t ≠ 0) ∧
     DetermineOffset Q s t = 0) := by
  by_cases hex : ∃ j, j < Q ∧
      notMatchCount (s.pose_matrix ((s.current_idx + Q - j) % Q)) t = 0
  · left
    obtain ⟨hmQ, hmz⟩ := Nat.find_spec hex
    have hres : DetermineOffset Q s t = Nat.find hex := by
      apply determineOffset_eq_of_first hmQ
      · rw [cxxIdx_eq hc hmQ]
        exact hmz
      · intro j hj
        rw [cxxIdx_eq hc (by omega)]
        intro hz
        exact Nat.find_min hex hj ⟨by omega, hz⟩
    rw [hres]
    exact ⟨hmQ, hmz, fun j hj hz => Nat.find_min hex hj ⟨by omega, hz⟩⟩
  · right
    push_neg at hex
    refine ⟨hex, ?_⟩
    apply determineOffset_eq_zero
    intro j hj
    rw [cxxIdx_eq hc hj]
    exact hex j hj

/-- Witness for the amended C2 at capacity 2 after one push. -/
theorem claim_C2_amended_witness :
    ((0 : ℕ) < 2 ∧ (pushAll 2 initState [onesPose]).current_idx < 2) ∧
    ((DetermineOffset 2 (pushAll 2 initState [onesPose]) (cxrOfGlm onesPose) < 2 ∧
      notMatchCount
        ((pushAll 2 initState [onesPose]).pose_matrix
          (((pushAll 2 initState [onesPose]).current_idx + 2 -
            DetermineOffset 2 (pushAll 2 initState [onesPose]) (cxrOfGlm onesPose)) % 2))
        (cxrOfGlm onesPose) = 0 ∧
      (∀ j < DetermineOffset 2 (pushAll 2 initState [onesPose]) (cxrOfGlm onesPose),
        notMatchCount
          ((pushAll 2 initState [onesPose]).pose_matrix
            (((pushAll 2 initState [onesPose]).current_idx + 2 - j) % 2))
          (cxrOfGlm onesPose) ≠ 0)) ∨
     ((∀ j < 2,
        notMatchCount
          ((pushAll 2 initState [onesPose]).pose_matrix
            (((pushAll 2 initState [onesPose]).current_idx + 2 - j) % 2))
          (cxrOfGlm onesPose) ≠ 0) ∧
      DetermineOffset 2 (pushAll 2 initState [onesPose]) (cxrOfGlm onesPose) = 0)) :=
  ⟨⟨by decide, by with_unfolding_all decide⟩,
   claim_C2_amended_scan_starts_at_cursor 2 (pushAll 2 initState [onesPose])
     (cxrOfGlm onesPose) (by decide) (by with_unfolding_all decide)⟩

/-- C6: pushing `Q + 1` poses overwrites the first: provided the first pose
is not within tolerance of any later pushed pose, no ring slot holds it
afterwards, while every one of the last `Q` pushed poses is present at
its ring position. -/
theorem claim_C6_capacity_plus_one_overwrites_oldest
    (Q : ℕ) (ps : List Mat44) (hQ : 0 < Q) (hlen : ps.length = Q + 1)
    (hdiff : ∀ j < ps.length, 0 < j →
      notMatchCount (cxrOfGlm (ps.getD j glmZero))
        (cxrOfGlm (ps.getD 0 glmZero)) ≠ 0) :
    (∀ i < Q, (pushAll Q initState ps).pose_matrix i ≠
      cxrOfGlm (ps.getD 0 glmZero)) ∧
    (∀ k < Q, (pushAll Q initState ps).pose_matrix ((ps.length - 1 - k) % Q) =
      cxrOfGlm (ps.getD (ps.length - 1 - k) glmZero)) := by
  constructor
  · intro i hi
    by_cases hi0 : i = 0
    · subst hi0
      have hrec := pushAll_slot_recent hQ ps Q (by omega) (by omega)
      rw [Nat.mod_self] at hrec
      rw [hrec]
      exact ne_of_notMatchCount_pos (hdiff Q (by omega) (by omega))
    · have hrec := pushAll_slot_recent hQ ps i (by omega) (by omega)
      rw [Nat.mod_eq_of_lt hi] at hrec
      rw [hrec]
      exact ne_of_notMatchCount_pos (hdiff i (by omega) (by omega))
  · intro k hk
    exact pushAll_slot_recent hQ ps (ps.length - 1 - k) (by omega) (by omega)

/-- Witness for C6 at capacity 2 with pushes
`[onesPose, twosPose, threesPose]`. -/
theorem claim_C6_witness :
    ((0 : ℕ) < 2 ∧ [onesPose, twosPose, threesPose].length = 2 + 1 ∧
     (∀ j < [onesPose, twosPose, threesPose].length, 0 < j →
       notMatchCount (cxrOfGlm ([onesPose, twosPose, threesPose].getD j glmZero))
         (cxrOfGlm ([onesPose, twosPose, threesPose].getD 0 glmZero)) ≠ 0)) ∧
    ((∀ i < 2, (pushAll 2 initState [onesPose, twosPose, threesPose]).pose_matrix i ≠
       cxrOfGlm ([onesPose, twosPose, threesPose].getD 0 glmZero)) ∧
     (∀ k < 2, (pushAll 2 initState [onesPose, twosPose, threesPose]).pose_matrix
         (([onesPose, twosPose, threesPose].length - 1 - k) % 2) =
       cxrOfGlm ([onesPose, twosPose, threesPose].getD
         ([onesPose, twosPose, threesPose].length - 1 - k) glmZero))) :=
  ⟨⟨by decide, by decide, by with_unfolding_all decide⟩,
   claim_C6_capacity_plus_one_overwrites_oldest 2 [onesPose, twosPose, threesPose]
     (by decide) (by decide) (by with_unfolding_all decide)⟩

/-- C8 counterexample: the scan of `DetermineOffset` accesses the ring
(cursor and slots) at lock depth 0 — it takes no `std::lock_guard` — so
"every ring access occurs inside an exclusive critical section of the
single mutex" is false of the code. -/
theorem claim_C8_counterexample :
    accessesLocked (determineOffsetTrace 16 initState (cxrOfGlm onesPose)) = false := by
  with_unfolding_all decide

/-- C8 amended: `SetPoseMatrix` and the `GetTrackingState` ring read
perform all their ring accesses inside the mutex's critical section, but
`DetermineOffset` scans the ring with no lock held: all of its ring
accesses are outside any critical section (in the actual threading it is
only safe because it runs on the render thread, the single writer). -/
theorem claim_C8_amended_determine_offset_unlocked
    (cur idx Q : ℕ) (s : CXRState) (t : Mat34) (hQ : 0 < Q) :
    accessesLocked (setPoseMatrixTrace cur) = true ∧
    accessesLocked (getTrackingStateTrace idx) = true ∧
    accessesLocked (determineOffsetTrace Q s t) = false := by
  refine ⟨rfl, rfl, ?_⟩
  cases Q with
  | zero => omega
  | succ n =>
    show lockedFrom 0 (detLoopTrace (n + 1) s t 0 (n + 1)) = false
    unfold detLoopTrace
    simp [lockedFrom, isRingAccess]

/-- Witness for the amended C8 at capacity 2. -/
theorem claim_C8_amended_witness :
    ((0 : ℕ) < 2) ∧
    (accessesLocked (setPoseMatrixTrace 0) = true ∧
     accessesLocked (getTrackingStateTrace 1) = true ∧
     accessesLocked (determineOffsetTrace 2 initState zeroMat) = false) :=
  ⟨by decide,
   claim_C8_amended_determine_offset_unlocked 0 1 2 initState zeroMat (by decide)⟩

end CloudXR
